import Mathlib

/- Verification development for pkg/fqtest/fqtest.go: the transcript parser
and session replay engine of the fq test harness.

Modelling conventions:
- Go byte strings are modelled as Lean strings, one Char per byte (all bytes
  produced by the escape decoder are in the range 0..255).
- Go panics and nil-pointer dereferences are modelled as Except.error.
- The Go map built inside Environ is modelled as an association list built in
  insertion order with last-write-wins; since every key occurs at most once in
  the resulting list, the environment lookup is the same function that the Go
  code computes regardless of map iteration order. -/

namespace Fqtest

/-! String helpers over the character list representation. -/

def strTake (n : Nat) (s : String) : String := ⟨s.data.take n⟩

def strDrop (n : Nat) (s : String) : String := ⟨s.data.drop n⟩

def strDropRight (n : Nat) (s : String) : String := ⟨s.data.take (s.data.length - n)⟩

def dataPre (p s : String) : Bool := p.data.isPrefixOf s.data

def dataSuf (p s : String) : Bool := p.data.isSuffixOf s.data

def strConcat : List String → String
  | [] => ""
  | s :: rest => s ++ strConcat rest

theorem strData_append (a b : String) : (a ++ b).data = a.data ++ b.data := rfl

theorem strAppend_assoc (a b c : String) : a ++ b ++ c = a ++ (b ++ c) := by
  obtain ⟨da⟩ := a; obtain ⟨db⟩ := b; obtain ⟨dc⟩ := c
  show String.mk ((da ++ db) ++ dc) = String.mk (da ++ (db ++ dc))
  rw [List.append_assoc]

theorem strAppend_nil (a : String) : a ++ "" = a := by
  obtain ⟨da⟩ := a
  show String.mk (da ++ []) = String.mk da
  rw [List.append_nil]

theorem strNil_append (a : String) : "" ++ a = a := rfl

/-! The escape decoder (Unescape).  The Go source uses the regular expression
    backslash (?: t|b|n|r|0 (?: b[01]{8} | x[0-f]{2} ) )
and replaces every leftmost non-overlapping match: t b n r map to the single
control byte, a 0b payload of 8 binary digits decodes via
bitio.BytesFromBitString, and a 0x payload of two characters in the ASCII
range from 0 to f decodes via hex.DecodeString with the error ignored, so a
payload that is inside the character class but is not valid hexadecimal is
replaced by the empty string (best-effort decode).  A position where no
alternative matches is left unchanged and scanning resumes at the next
character, exactly as regexp replacement does. -/

def isBin (c : Char) : Bool := c = '0' || c = '1'

def bitv (c : Char) : Nat := if c = '1' then 1 else 0

/-- Character class of the Go regex fragment written as 0 dash f inside
brackets: the ASCII range from code 0x30 to code 0x66. -/
def inHexClass (c : Char) : Bool := '0' ≤ c && c ≤ 'f'

def hexVal? (c : Char) : Option Nat :=
  let n := c.toNat
  if 0x30 ≤ n ∧ n ≤ 0x39 then some (n - 0x30)
  else if 0x61 ≤ n ∧ n ≤ 0x66 then some (n - 0x57)
  else if 0x41 ≤ n ∧ n ≤ 0x46 then some (n - 0x37)
  else none

def unescapeCore : List Char → List Char
  | [] => []
  | '\\' :: 'n' :: rest => '\n' :: unescapeCore rest
  | '\\' :: 'r' :: rest => '\r' :: unescapeCore rest
  | '\\' :: 't' :: rest => '\t' :: unescapeCore rest
  | '\\' :: 'b' :: rest => Char.ofNat 8 :: unescapeCore rest
  | '\\' :: '0' :: 'b' :: b1 :: b2 :: b3 :: b4 :: b5 :: b6 :: b7 :: b8 :: rest =>
    if isBin b1 && isBin b2 && isBin b3 && isBin b4 &&
       isBin b5 && isBin b6 && isBin b7 && isBin b8 then
      Char.ofNat ((((((((bitv b1) * 2 + bitv b2) * 2 + bitv b3) * 2 + bitv b4) * 2 +
        bitv b5) * 2 + bitv b6) * 2 + bitv b7) * 2 + bitv b8) :: unescapeCore rest
    else
      '\\' :: unescapeCore ('0' :: 'b' :: b1 :: b2 :: b3 :: b4 :: b5 :: b6 :: b7 :: b8 :: rest)
  | '\\' :: '0' :: 'x' :: h1 :: h2 :: rest =>
    if inHexClass h1 && inHexClass h2 then
      match hexVal? h1, hexVal? h2 with
      | some a, some b => Char.ofNat (16 * a + b) :: unescapeCore rest
      | _, _ => unescapeCore rest
    else
      '\\' :: unescapeCore ('0' :: 'x' :: h1 :: h2 :: rest)
  | c :: rest => c :: unescapeCore rest

def Unescape (s : String) : String := ⟨unescapeCore s.data⟩

/-! The lexical section splitter (SectionParser).  The Go code splits the
input on newline characters (dropping a final empty fragment, as
strings.Split produces one for input ending in a newline), then walks the
lines keeping a current section: a line where the boundary regexp matches
starts a new section whose Name is the first non-empty submatch, and so does
the very first line even when it does not match (with Name empty, the line
text itself being recorded nowhere); any other line is appended to the
current section's Value together with a newline.  The regexp and its
submatch extraction are abstracted as a function from a line to an optional
header. -/

def splitOnNl : List Char → List (List Char)
  | [] => [[]]
  | c :: rest =>
    if c = '\n' then [] :: splitOnNl rest
    else
      match splitOnNl rest with
      | [] => [[c]]
      | l :: ls => (c :: l) :: ls

def splitLines (s : String) : List String :=
  let ls := splitOnNl s.data
  let ls := if ls.getLast? = some [] then ls.dropLast else ls
  ls.map fun l => ⟨l⟩

structure Section where
  LineNr : Nat
  Name : String
  Value : String
deriving Repr, DecidableEq

def spLoop (f : String → Option String) : Nat → Option Section → List String → List Section
  | _, none, [] => []
  | _, some c, [] => [c]
  | nr, cs, l :: ls =>
    match f l with
    | some name =>
      match cs with
      | none => spLoop f (nr + 1) (some ⟨nr, name, ""⟩) ls
      | some c => c :: spLoop f (nr + 1) (some ⟨nr, name, ""⟩) ls
    | none =>
      match cs with
      | none => spLoop f (nr + 1) (some ⟨nr, "", ""⟩) ls
      | some c => spLoop f (nr + 1) (some ⟨c.LineNr, c.Name, c.Value ++ l ++ "\n"⟩) ls

def SectionParser (f : String → Option String) (s : String) : List Section :=
  spLoop f 1 none (splitLines s)

/-! The boundary matcher used by parseTestCases.  It models
FindStringSubmatch with the anchored alternation (in this priority order)
  dollar-space anything / stdin: / stderr: / exitcode-colon anything /
  hash anything / slash-anything-colon / prompt-line
returning the matched text.  Go regexp alternation is leftmost-first, every
alternative is anchored at the start of the line, and all alternatives except
the slash-colon one extend to the end of the line; the slash-colon
alternative matches greedily up to the last colon of the line.  A prompt line
is one that has a greater-than character at some position at least 1 such
that no earlier character is a less-than, colon or pipe character. -/

def promptScan : List Char → Bool
  | [] => false
  | c :: rest =>
    if c = '>' then true
    else if c = '<' || c = ':' || c = '|' then false
    else promptScan rest

def promptMatch (l : String) : Bool :=
  match l.data with
  | [] => false
  | c :: rest =>
    if c = '<' || c = ':' || c = '|' then false
    else promptScan rest

def takeToLastColon (s : String) : String :=
  ⟨((s.data.reverse.dropWhile fun c => ¬c = ':').reverse)⟩

def fqBoundary (l : String) : Option String :=
  if dataPre "$ " l then some l
  else if l = "stdin:" then some l
  else if l = "stderr:" then some l
  else if dataPre "exitcode:" l then some l
  else if dataPre "#" l then some l
  else if dataPre "/" l && l.data.contains ':' then some (takeToLastColon l)
  else if promptMatch l then some l
  else none

/-- Reconstruction of a transcript from its sections in the sense of the
spec: each section contributes its header line followed by a newline (the
header line being omitted when the header is empty, as for the implicit
zero-header first section) followed by its body. -/
def reconstructSections : List Section → String
  | [] => ""
  | sec :: rest =>
    (if sec.Name = "" then "" else sec.Name ++ "\n") ++ sec.Value ++ reconstructSections rest

def joinLines : List String → String
  | [] => ""
  | l :: ls => l ++ "\n" ++ joinLines ls

/-! Trimming helpers mirroring strings.TrimSpace, strings.TrimPrefix and
strings.TrimSuffix from the Go standard library, and strconv.Atoi with its
error ignored (which yields 0 on a syntax error and the clamped 64-bit value
on a range error, as the callers in fqtest.go discard the error). -/

def goSpace (c : Char) : Bool :=
  c = ' ' || c = '\t' || c = '\n' || c = Char.ofNat 11 || c = Char.ofNat 12 ||
  c = '\r' || c = Char.ofNat 0x85 || c = Char.ofNat 0xA0

def trimSpaceStr (s : String) : String :=
  ⟨((s.data.dropWhile goSpace).reverse.dropWhile goSpace).reverse⟩

def trimPrefixStr (s p : String) : String :=
  if dataPre p s then strDrop p.data.length s else s

def trimSuffixStr (s p : String) : String :=
  if dataSuf p s then strDropRight p.data.length s else s

def digitVal? (c : Char) : Option Nat :=
  if '0' ≤ c && c ≤ '9' then some (c.toNat - '0'.toNat) else none

def digitsValAux : Nat → List Char → Option Nat
  | acc, [] => some acc
  | acc, c :: rest =>
    match digitVal? c with
    | some d => digitsValAux (acc * 10 + d) rest
    | none => none

def clampInt64 (n : Int) : Int :=
  if n > 9223372036854775807 then 9223372036854775807
  else if n < -9223372036854775808 then -9223372036854775808
  else n

def atoi (s : String) : Int :=
  match s.data with
  | '+' :: rest =>
    match rest, digitsValAux 0 rest with
    | _ :: _, some n => clampInt64 (Int.ofNat n)
    | _, _ => 0
  | '-' :: rest =>
    match rest, digitsValAux 0 rest with
    | _ :: _, some n => clampInt64 (-(Int.ofNat n))
    | _, _ => 0
  | cs =>
    match cs, digitsValAux 0 cs with
    | _ :: _, some n => clampInt64 (Int.ofNat n)
    | _, _ => 0

/-! The command and input tokenizer.  kvRe models the Go regexp matching a
leading run of uppercase letters or underscores followed by an equal sign. -/

def kvHeadChar (c : Char) : Bool := ('A' ≤ c && c ≤ 'Z') || c = '_'

def kvScan : List Char → Bool
  | [] => false
  | c :: rest => if c = '=' then true else if kvHeadChar c then kvScan rest else false

def kvMatch (s : String) : Bool :=
  match s.data with
  | [] => false
  | c :: rest => if kvHeadChar c then kvScan rest else false

/-- Modelled from the spec: the repository's internal package shquote (not
under src/) provides Split, a shell-like tokenizer that splits a line into
whitespace-separated tokens while honoring single- and double-quoted groups
(quotes removed from the token text). -/
def shquoteSplitCore : List Char → Option Char → Option (List Char) → List String
  | [], _, none => []
  | [], _, some acc => [⟨acc⟩]
  | c :: rest, some q, acc =>
    if c = q then shquoteSplitCore rest none (some (acc.getD []))
    else shquoteSplitCore rest (some q) (some (acc.getD [] ++ [c]))
  | c :: rest, none, acc =>
    if c = ' ' || c = '\t' then
      match acc with
      | none => shquoteSplitCore rest none none
      | some a => ⟨a⟩ :: shquoteSplitCore rest none none
    else if c = '\'' || c = '"' then
      shquoteSplitCore rest (some c) (some (acc.getD []))
    else
      shquoteSplitCore rest none (some (acc.getD [] ++ [c]))

def shquoteSplit (s : String) : List String := shquoteSplitCore s.data none none

structure Token where
  Str : String
  Separator : Bool
  End : Nat
deriving Repr, DecidableEq

/-- Modelled from the spec: shquote.Parse as used for dialog-input lines —
whitespace-delimited, non-quote-aware tokens; runs of whitespace become
separator tokens; every token records the offset just past its last
character in the original string. -/
def shquoteParseCore : List Char → Nat → Bool → List Char → List Token
  | [], _, _, [] => []
  | [], i, isSep, acc => [⟨⟨acc⟩, isSep, i⟩]
  | c :: rest, i, isSep, acc =>
    let cSep := c = ' ' || c = '\t'
    if acc.isEmpty then shquoteParseCore rest (i + 1) cSep [c]
    else if cSep = isSep then shquoteParseCore rest (i + 1) isSep (acc ++ [c])
    else ⟨⟨acc⟩, isSep, i⟩ :: shquoteParseCore rest (i + 1) cSep [c]

def shquoteParse (s : String) : List Token := shquoteParseCore s.data 0 false []

def parseCommandLoop : List String → List String × List String
  | [] => ([], [])
  | p :: rest =>
    if kvMatch p then
      let r := parseCommandLoop rest
      (p :: r.1, r.2)
    else ([], p :: rest)

def parseCommand (s : String) : List String × List String :=
  parseCommandLoop (shquoteSplit s)

def parseInputLoop : List Token → Nat → List String × Nat
  | [], l => ([], l)
  | t :: rest, l =>
    if t.Separator then parseInputLoop rest l
    else if kvMatch t.Str then
      let r := parseInputLoop rest t.End
      (t.Str :: r.1, r.2)
    else ([], l)

def parseInput (s : String) : List String × String :=
  let r := parseInputLoop (shquoteParse s) 0
  (r.1, strDrop r.2 s)

/-! The transcript data model.  A testCaseRun carries the per-invocation
fields of the Go struct; the back pointer to the owning testCase and the
interp-facing views are not part of the model.  The growable output buffers
are modelled as strings. -/

structure testCaseReadline where
  expr : String
  env : List String
  input : String
  expectedPrompt : String
  expectedStdout : String
deriving Repr, DecidableEq

instance : Inhabited testCaseReadline := ⟨⟨"", [], "", "", ""⟩⟩

structure testCaseRun where
  lineNr : Nat
  command : String
  env : List String
  args : List String
  stdin : String
  expectedStdout : String
  expectedStderr : String
  expectedExitCode : Int
  actualStdoutBuf : String
  actualStderrBuf : String
  actualExitCode : Int
  readlines : List testCaseReadline
  readlinesPos : Nat
  readlineEnv : List String
deriving Repr, DecidableEq

inductive part where
  | comment (lineNr : Nat) (comment : String)
  | file (lineNr : Nat) (name : String) (data : String)
  | run (tcr : testCaseRun)
deriving Repr, DecidableEq

def part.Line : part → Nat
  | .comment lineNr _ => lineNr
  | .file lineNr _ _ => lineNr
  | .run tcr => tcr.lineNr

structure testCase where
  path : String
  parts : List part
  wasTested : Bool
deriving Repr, DecidableEq

/-! The merged environment (Environ / getEnv).  The Go code concatenates the
fixed base environment, the invocation-level assignments and the
readline-level assignments, then collapses them through a map where a later
assignment of the same key overwrites an earlier one; getEnv scans the
resulting entries for the first one whose text starts with the queried name
followed by an equal sign and returns the remainder (or the empty string). -/

def baseEnvList : List String :=
  ["_STDIN_WIDTH=135", "_STDIN_HEIGHT=25", "_STDOUT_WIDTH=135", "_STDOUT_HEIGHT=25",
   "_STDOUT_ISTERMINAL=1", "NO_COLOR=1", "NO_DECODE_PROGRESS=1"]

def splitKVCore : List Char → List Char → Option (List Char × List Char)
  | _, [] => none
  | acc, c :: rest =>
    if c = '=' then
      if acc.isEmpty then none else some (acc, rest)
    else splitKVCore (acc ++ [c]) rest

def splitKV (kv : String) : Option (String × String) :=
  (splitKVCore [] kv.data).map fun p => (⟨p.1⟩, ⟨p.2⟩)

def updateKV (m : List (String × String)) (k v : String) : List (String × String) :=
  if m.any fun p => p.1 = k then
    m.map fun p => if p.1 = k then (k, v) else p
  else m ++ [(k, v)]

def envmOf (kvs : List String) : List (String × String) :=
  kvs.foldl
    (fun m kv =>
      match splitKV kv with
      | some p => updateKV m p.1 p.2
      | none => m)
    []

def envmList (kvs : List String) : List String :=
  (envmOf kvs).map fun p => p.1 ++ "=" ++ p.2

def Environ (tcr : testCaseRun) : List String :=
  envmList (baseEnvList ++ tcr.env ++ tcr.readlineEnv)

def envScan : List String → String → String
  | [], _ => ""
  | kv :: rest, name =>
    if dataPre (name ++ "=") kv then strDrop (name.data.length + 1) kv
    else envScan rest name

def getEnv (tcr : testCaseRun) (name : String) : String :=
  envScan (Environ tcr) name

/-! The dialog simulator (Readline).  The result is the updated run state
together with the returned line and an end-of-stream flag (the only error the
Go method ever returns is io.EOF). -/

def Readline (tcr : testCaseRun) (prompt : String)
    (complete : String → Nat → List String × Nat) : testCaseRun × String × Bool :=
  let tcr1 := { tcr with actualStdoutBuf := tcr.actualStdoutBuf ++ prompt }
  match tcr.readlines.drop tcr.readlinesPos with
  | [] => (tcr1, "", true)
  | rl :: _ =>
    let expr := rl.expr
    let lineRaw := rl.input
    let line := Unescape lineRaw
    let tcr2 := { tcr1 with readlineEnv := rl.env, readlinesPos := tcr.readlinesPos + 1 }
    if dataSuf "\t" line then
      let tcr3 := { tcr2 with actualStdoutBuf := tcr2.actualStdoutBuf ++ lineRaw ++ "\n" }
      let l := line.data.length - 1
      let comp := complete (strTake l line) l
      let tcr4 := { tcr3 with
        actualStdoutBuf := tcr3.actualStdoutBuf ++ strConcat (comp.1.map fun nl => nl ++ "\n") }
      (tcr4, "", false)
    else
      let tcr3 := { tcr2 with actualStdoutBuf := tcr2.actualStdoutBuf ++ expr ++ "\n" }
      if line = "^D" then (tcr3, "", true) else (tcr3, line, false)

/-! The expected-stdout reconstruction used by the comparator. -/

def ToExpectedStdout (tcr : testCaseRun) : String :=
  if tcr.readlines.isEmpty then tcr.expectedStdout
  else
    strConcat (tcr.readlines.map fun rl =>
      rl.expectedPrompt ++ rl.expr ++ "\n" ++
        (if rl.expectedStdout = "" then "" else rl.expectedStdout))

def ToExpectedStderr (tcr : testCaseRun) : String := tcr.expectedStderr

/-! The golden rewriter (ToActual).  Parts are rendered in ascending line
number order (the Go code sorts a copy of the parts slice by Line); each
invocation is rendered from its captured actual fields. -/

def lineLe (a b : part) : Prop := a.Line ≤ b.Line

instance : DecidableRel lineLe := fun a b => Nat.decLe a.Line b.Line

instance : IsTotal part lineLe := ⟨fun a b => Nat.le_total a.Line b.Line⟩

instance : IsTrans part lineLe := ⟨fun _ _ _ h1 h2 => Nat.le_trans h1 h2⟩

def renderPart : part → String
  | .comment _ c => "#" ++ c ++ "\n"
  | .run p =>
    "$" ++ p.command ++ "\n" ++
    (if p.actualStdoutBuf ≠ "" then
      p.actualStdoutBuf ++ (if dataSuf "\n" p.actualStdoutBuf then "" else "\\\n")
    else "") ++
    (if p.actualExitCode ≠ 0 then "exitcode: " ++ toString p.actualExitCode ++ "\n" else "") ++
    (if p.stdin ≠ "" then "stdin:\n" ++ p.stdin else "") ++
    (if p.actualStderrBuf ≠ "" then "stderr:\n" ++ p.actualStderrBuf else "")
  | .file _ name data => name ++ ":\n" ++ data

def ToActual (tc : testCase) : String :=
  strConcat ((tc.parts.insertionSort lineLe).map renderPart)

/-- The rewrite-mode guard in TestPath: with the write-actual flag set, a
transcript file is written back from ToActual only when at least one of its
invocations was actually replayed (wasTested). -/
def rewriteTargets (tcs : List testCase) : List testCase :=
  tcs.filter fun tc => tc.wasTested

/-! The transcript model builder (parseTestCases).  The Go function walks the
section stream keeping a current invocation; the default branch of its switch
panics on an unrecognized section header, and the branches that dereference
the current invocation panic when no invocation has been started; both are
modelled as Except.error. -/

structure ParseState where
  parts : List part
  current : Option testCaseRun
  replDepth : Int
deriving Repr

def newRun (lineNr : Nat) (command : String) (v : String) : testCaseRun :=
  let ea := parseCommand command
  { lineNr := lineNr
    command := command
    env := ea.1
    args := ea.2
    stdin := ""
    expectedStdout := v
    expectedStderr := ""
    expectedExitCode := 0
    actualStdoutBuf := ""
    actualStderrBuf := ""
    actualExitCode := 0
    readlines := []
    readlinesPos := 0
    readlineEnv := [] }

def lastIdxAux (c : Char) : List Char → Nat → Option Nat → Option Nat
  | [], _, best => best
  | x :: rest, i, best => lastIdxAux c rest (i + 1) (if x = c then some i else best)

def lastIdxOf (c : Char) (s : String) : Option Nat := lastIdxAux c s.data 0 none

def containsSub (needle : List Char) : List Char → Bool
  | [] => needle.isPrefixOf []
  | c :: rest => needle.isPrefixOf (c :: rest) || containsSub needle rest

def processSection (st : ParseState) (sec : Section) : Except String ParseState :=
  let n := sec.Name
  let v := sec.Value
  if dataPre "#" n then
    .ok { st with parts := st.parts ++ [part.comment sec.LineNr (strDrop 1 n)] }
  else if dataPre "/" n then
    .ok { st with parts := st.parts ++ [part.file sec.LineNr (strDropRight 1 n) v] }
  else if dataPre "$" n then
    let parts :=
      match st.current with
      | some c => st.parts ++ [part.run c]
      | none => st.parts
    let v1 := trimSuffixStr v "\\\n"
    let command := trimPrefixStr n "$"
    .ok { parts := parts
          current := some (newRun sec.LineNr command v1)
          replDepth := st.replDepth + 1 }
  else if dataPre "exitcode:" n then
    match st.current with
    | none => .error "nil current invocation"
    | some c =>
      .ok { st with
        current := some { c with expectedExitCode := atoi (trimSpaceStr (trimPrefixStr n "exitcode:")) } }
  else if dataPre "stdin" n then
    match st.current with
    | none => .error "nil current invocation"
    | some c => .ok { st with current := some { c with stdin := v } }
  else if dataPre "stderr" n then
    match st.current with
    | none => .error "nil current invocation"
    | some c => .ok { st with current := some { c with expectedStderr := v } }
  else if n.data.contains '>' then
    match lastIdxOf '>' n with
    | none => .error "unreachable"
    | some i =>
      let prompt := strTake i n ++ ">" ++ " "
      let expr := trimSpaceStr (strDrop (i + 1) n)
      let ei := parseInput expr
      match st.current with
      | none => .error "nil current invocation"
      | some c =>
        let c1 := { c with readlines := c.readlines ++
          [{ expr := expr, env := ei.1, input := ei.2, expectedPrompt := prompt,
             expectedStdout := v }] }
        let d1 := if containsSub "| repl".data expr.data then st.replDepth + 1 else st.replDepth
        let d2 := if expr = "^D" then d1 - 1 else d1
        .ok { st with current := some c1, replDepth := d2 }
  else
    .error ("unexpected section at line " ++ toString sec.LineNr)

def runSections : ParseState → List Section → Except String testCase
  | st, [] =>
    .ok { path := ""
          parts :=
            match st.current with
            | some c => st.parts ++ [part.run c]
            | none => st.parts
          wasTested := false }
  | st, sec :: rest =>
    match processSection st sec with
    | .error e => .error e
    | .ok st1 => runSections st1 rest

def parseTestCases (s : String) : Except String testCase :=
  runSections ⟨[], none, 0⟩ (SectionParser fqBoundary s)

def runsOf (ps : List part) : List testCaseRun :=
  ps.filterMap fun p =>
    match p with
    | .run r => some r
    | _ => none

/-! Driving a dialog session to exhaustion: repeated Readline calls with a
fixed prompt and completion function until end-of-stream is signaled,
returning the final state and the number of calls made. -/

def drive (prompt : String) (complete : String → Nat → List String × Nat) :
    Nat → testCaseRun → testCaseRun × Nat
  | 0, tcr => (tcr, 0)
  | fuel + 1, tcr =>
    let r := Readline tcr prompt complete
    if r.2.2 then (r.1, 1)
    else
      let d := drive prompt complete fuel r.1
      (d.1, d.2 + 1)

/-- The text one consumed dialog turn contributes to captured stdout after
the prompt: for a completion turn the raw input line, a newline and every
candidate on its own line; otherwise the display expression and a newline. -/
def turnEcho (complete : String → Nat → List String × Nat) (rl : testCaseReadline) : String :=
  let line := Unescape rl.input
  if dataSuf "\t" line then
    rl.input ++ "\n" ++
      strConcat (((complete (strTake (line.data.length - 1) line) (line.data.length - 1)).1).map
        fun nl => nl ++ "\n")
  else rl.expr ++ "\n"

/-! Helper lemmas about line splitting: splitOnNl is the inverse of joining
with newline separators, and an input ending in a newline always yields a
final empty fragment. -/

def joinAll : List (List Char) → List Char
  | [] => []
  | [l] => l
  | l :: l2 :: ls => l ++ '\n' :: joinAll (l2 :: ls)

def joinC : List (List Char) → List Char
  | [] => []
  | l :: ls => l ++ '\n' :: joinC ls

theorem splitOnNl_nl (rest : List Char) : splitOnNl ('\n' :: rest) = [] :: splitOnNl rest := by
  simp [splitOnNl]

theorem splitOnNl_cons_ne (c : Char) (rest : List Char) (hc : ¬c = '\n')
    (l : List Char) (ls : List (List Char)) (hsp : splitOnNl rest = l :: ls) :
    splitOnNl (c :: rest) = (c :: l) :: ls := by
  conv_lhs => rw [splitOnNl]
  rw [if_neg hc, hsp]

theorem splitOnNl_ne_nil : ∀ cs : List Char, splitOnNl cs ≠ [] := by
  intro cs
  induction cs with
  | nil => simp [splitOnNl]
  | cons c rest ih =>
    by_cases hc : c = '\n'
    · subst hc
      rw [splitOnNl_nl]
      simp
    · cases hsp : splitOnNl rest with
      | nil => exact absurd hsp ih
      | cons l ls =>
        rw [splitOnNl_cons_ne c rest hc l ls hsp]
        simp

theorem joinAll_splitOnNl : ∀ cs : List Char, joinAll (splitOnNl cs) = cs := by
  intro cs
  induction cs with
  | nil => rfl
  | cons c rest ih =>
    obtain ⟨l, ls, hsp⟩ : ∃ l ls, splitOnNl rest = l :: ls := by
      cases hsp : splitOnNl rest with
      | nil => exact absurd hsp (splitOnNl_ne_nil rest)
      | cons l ls => exact ⟨l, ls, rfl⟩
    rw [hsp] at ih
    by_cases h : c = '\n'
    · subst h
      rw [splitOnNl_nl, hsp]
      show '\n' :: joinAll (l :: ls) = '\n' :: rest
      rw [ih]
    · rw [splitOnNl_cons_ne c rest h l ls hsp]
      cases ls with
      | nil =>
        show c :: l = c :: rest
        have h2 : l = rest := ih
        rw [h2]
      | cons l2 ls2 =>
        show (c :: l) ++ '\n' :: joinAll (l2 :: ls2) = c :: rest
        have h2 : l ++ '\n' :: joinAll (l2 :: ls2) = rest := ih
        rw [List.cons_append, h2]

theorem splitOnNl_getLast : ∀ cs : List Char, cs.getLast? = some '\n' →
    (splitOnNl cs).getLast? = some [] := by
  intro cs
  induction cs with
  | nil => intro h; simp at h
  | cons c rest ih =>
    intro h
    cases rest with
    | nil =>
      simp only [List.getLast?_singleton, Option.some.injEq] at h
      subst h
      rfl
    | cons r rs =>
      have hlast : (r :: rs).getLast? = some '\n' := by
        rwa [List.getLast?_cons_cons] at h
      have ihl := ih hlast
      obtain ⟨l, ls, hsp⟩ : ∃ l ls, splitOnNl (r :: rs) = l :: ls := by
        cases hsp : splitOnNl (r :: rs) with
        | nil => exact absurd hsp (splitOnNl_ne_nil _)
        | cons l ls => exact ⟨l, ls, rfl⟩
      rw [hsp] at ihl
      by_cases hc : c = '\n'
      · subst hc
        rw [splitOnNl_nl, hsp]
        rwa [List.getLast?_cons_cons]
      · rw [splitOnNl_cons_ne c (r :: rs) hc l ls hsp]
        cases ls with
        | nil =>
          simp only [List.getLast?_singleton, Option.some.injEq] at ihl
          subst ihl
          have hj : joinAll (splitOnNl (r :: rs)) = r :: rs := joinAll_splitOnNl _
          rw [hsp] at hj
          simp only [joinAll] at hj
          exact absurd hj.symm (List.cons_ne_nil r rs)
        | cons l2 ls2 =>
          rw [List.getLast?_cons_cons]
          rwa [List.getLast?_cons_cons] at ihl

theorem joinC_dropLast : ∀ ps : List (List Char), ps.getLast? = some [] →
    joinC ps.dropLast = joinAll ps := by
  intro ps
  induction ps with
  | nil => intro h; simp at h
  | cons p ps ih =>
    intro h
    cases ps with
    | nil =>
      simp only [List.getLast?_singleton, Option.some.injEq] at h
      subst h
      rfl
    | cons q qs =>
      have hlast : (q :: qs).getLast? = some [] := by
        rwa [List.getLast?_cons_cons] at h
      have ihl := ih hlast
      show joinC (p :: (q :: qs).dropLast) = joinAll (p :: q :: qs)
      cases hq : (q :: qs).dropLast with
      | nil =>
        have : qs = [] := by
          cases qs with
          | nil => rfl
          | cons x xs => simp [List.dropLast] at hq
        subst this
        simp only [List.getLast?_singleton, Option.some.injEq] at hlast
        subst hlast
        rfl
      | cons d ds =>
        rw [← hq]
        show p ++ '\n' :: joinC (q :: qs).dropLast = joinAll (p :: q :: qs)
        rw [ihl]
        rfl

theorem joinLines_map_mk : ∀ lls : List (List Char),
    joinLines (lls.map fun l => (⟨l⟩ : String)) = ⟨joinC lls⟩ := by
  intro lls
  induction lls with
  | nil => rfl
  | cons l ls ih =>
    show (⟨l⟩ : String) ++ "\n" ++ joinLines (ls.map fun l => (⟨l⟩ : String)) = _
    rw [ih]
    show String.mk ((l ++ ['\n']) ++ joinC ls) = String.mk (l ++ '\n' :: joinC ls)
    rw [List.append_assoc]
    rfl

theorem joinLines_splitLines (s : String)
    (h : s.data = [] ∨ s.data.getLast? = some '\n') :
    joinLines (splitLines s) = s := by
  obtain ⟨d⟩ := s
  rcases h with h | h
  · simp only at h
    subst h
    rfl
  · simp only at h
    show joinLines (splitLines ⟨d⟩) = ⟨d⟩
    have hlast := splitOnNl_getLast d h
    simp only [splitLines, if_pos hlast]
    rw [joinLines_map_mk, joinC_dropLast _ hlast, joinAll_splitOnNl]

theorem Readline_exhausted (tcr : testCaseRun) (prompt : String)
    (complete : String → Nat → List String × Nat)
    (h : tcr.readlines.length ≤ tcr.readlinesPos) :
    Readline tcr prompt complete =
      ({ tcr with actualStdoutBuf := tcr.actualStdoutBuf ++ prompt }, "", true) := by
  unfold Readline
  rw [List.drop_eq_nil_of_le h]

theorem Readline_tab (tcr : testCaseRun) (prompt : String)
    (complete : String → Nat → List String × Nat) (rl : testCaseReadline)
    (rest : List testCaseReadline)
    (hdrop : tcr.readlines.drop tcr.readlinesPos = rl :: rest)
    (htab : dataSuf "\t" (Unescape rl.input) = true) :
    Readline tcr prompt complete =
      ({ tcr with
          actualStdoutBuf := tcr.actualStdoutBuf ++ prompt ++ rl.input ++ "\n" ++
            strConcat
              (((complete (strTake ((Unescape rl.input).data.length - 1) (Unescape rl.input))
                  ((Unescape rl.input).data.length - 1)).1).map fun nl => nl ++ "\n")
          readlineEnv := rl.env
          readlinesPos := tcr.readlinesPos + 1 }, "", false) := by
  unfold Readline
  rw [hdrop]
  simp [htab]

theorem Readline_eod (tcr : testCaseRun) (prompt : String)
    (complete : String → Nat → List String × Nat) (rl : testCaseReadline)
    (rest : List testCaseReadline)
    (hdrop : tcr.readlines.drop tcr.readlinesPos = rl :: rest)
    (htab : dataSuf "\t" (Unescape rl.input) = false)
    (hD : Unescape rl.input = "^D") :
    Readline tcr prompt complete =
      ({ tcr with
          actualStdoutBuf := tcr.actualStdoutBuf ++ prompt ++ rl.expr ++ "\n"
          readlineEnv := rl.env
          readlinesPos := tcr.readlinesPos + 1 }, "", true) := by
  unfold Readline
  rw [hdrop]
  simp [htab, hD]
  decide

theorem Readline_deliver (tcr : testCaseRun) (prompt : String)
    (complete : String → Nat → List String × Nat) (rl : testCaseReadline)
    (rest : List testCaseReadline)
    (hdrop : tcr.readlines.drop tcr.readlinesPos = rl :: rest)
    (htab : dataSuf "\t" (Unescape rl.input) = false)
    (hD : Unescape rl.input ≠ "^D") :
    Readline tcr prompt complete =
      ({ tcr with
          actualStdoutBuf := tcr.actualStdoutBuf ++ prompt ++ rl.expr ++ "\n"
          readlineEnv := rl.env
          readlinesPos := tcr.readlinesPos + 1 }, Unescape rl.input, false) := by
  unfold Readline
  rw [hdrop]
  simp [htab, hD]

theorem drive_step (prompt : String) (complete : String → Nat → List String × Nat)
    (fuel : Nat) (tcr : testCaseRun)
    (hne : (Readline tcr prompt complete).2.2 = false) :
    drive prompt complete (fuel + 1) tcr =
      ((drive prompt complete fuel (Readline tcr prompt complete).1).1,
       (drive prompt complete fuel (Readline tcr prompt complete).1).2 + 1) := by
  simp [drive, hne]

theorem drive_all (prompt : String) (complete : String → Nat → List String × Nat) :
    ∀ (rest : List testCaseReadline) (tcr : testCaseRun) (fuel : Nat),
    tcr.readlines.drop tcr.readlinesPos = rest →
    (∀ rl ∈ rest, Unescape rl.input ≠ "^D") →
    rest.length + 1 ≤ fuel →
    (drive prompt complete fuel tcr).2 = rest.length + 1 ∧
    ((drive prompt complete fuel tcr).1).actualStdoutBuf =
      tcr.actualStdoutBuf ++
        strConcat (rest.map fun rl => prompt ++ turnEcho complete rl) ++ prompt := by
  intro rest
  induction rest with
  | nil =>
    intro tcr fuel hdrop _ hfuel
    obtain ⟨f, rfl⟩ : ∃ f, fuel = f + 1 := ⟨fuel - 1, (Nat.succ_pred_eq_of_pos hfuel).symm⟩
    have hlen : tcr.readlines.length ≤ tcr.readlinesPos := List.drop_eq_nil_iff.mp hdrop
    have hr := Readline_exhausted tcr prompt complete hlen
    simp only [drive, hr]
    simp [strConcat, strAppend_nil]
  | cons rl rest ih =>
    intro tcr fuel hdrop hD hfuel
    obtain ⟨f, rfl⟩ : ∃ f, fuel = f + 1 :=
      ⟨fuel - 1, (Nat.succ_pred_eq_of_pos (Nat.lt_of_lt_of_le (Nat.succ_pos _) hfuel)).symm⟩
    have hDrl : Unescape rl.input ≠ "^D" := hD rl (List.mem_cons_self rl rest)
    have hDrest : ∀ x ∈ rest, Unescape x.input ≠ "^D" :=
      fun x hx => hD x (List.mem_cons_of_mem rl hx)
    have hfuel2 : rest.length + 1 ≤ f := by
      have := Nat.le_of_succ_le_succ hfuel
      simpa using this
    have hdtail : tcr.readlines.drop (tcr.readlinesPos + 1) = rest := by
      rw [← List.tail_drop, hdrop]
      rfl
    have hbranch :
        ((Readline tcr prompt complete).2.2 = false) ∧
        ((Readline tcr prompt complete).1).readlines = tcr.readlines ∧
        ((Readline tcr prompt complete).1).readlinesPos = tcr.readlinesPos + 1 ∧
        ((Readline tcr prompt complete).1).actualStdoutBuf =
          tcr.actualStdoutBuf ++ (prompt ++ turnEcho complete rl) := by
      by_cases htab : dataSuf "\t" (Unescape rl.input) = true
      · rw [Readline_tab tcr prompt complete rl rest hdrop htab]
        refine ⟨rfl, rfl, rfl, ?_⟩
        show tcr.actualStdoutBuf ++ prompt ++ rl.input ++ "\n" ++ _ = _
        simp [turnEcho, htab, strAppend_assoc]
      · have htab2 : dataSuf "\t" (Unescape rl.input) = false := by
          cases h : dataSuf "\t" (Unescape rl.input) with
          | false => rfl
          | true => exact absurd h htab
        rw [Readline_deliver tcr prompt complete rl rest hdrop htab2 hDrl]
        refine ⟨rfl, rfl, rfl, ?_⟩
        show tcr.actualStdoutBuf ++ prompt ++ rl.expr ++ "\n" = _
        simp [turnEcho, htab2, strAppend_assoc]
    obtain ⟨hne, hrlines, hrpos, hbuf⟩ := hbranch
    have hdrop1 : ((Readline tcr prompt complete).1).readlines.drop
        ((Readline tcr prompt complete).1).readlinesPos = rest := by
      rw [hrlines, hrpos, hdtail]
    have ihr := ih ((Readline tcr prompt complete).1) f hdrop1 hDrest hfuel2
    rw [drive_step prompt complete f tcr hne]
    refine ⟨by simp [ihr.1], ?_⟩
    show (drive prompt complete f ((Readline tcr prompt complete).1)).1.actualStdoutBuf = _
    rw [ihr.2, hbuf]
    show _ = tcr.actualStdoutBuf ++
      strConcat ((prompt ++ turnEcho complete rl) :: rest.map fun x => prompt ++ turnEcho complete x) ++ prompt
    simp [strConcat, strAppend_assoc]

theorem spLoop_reconstruct (f : String → Option String) :
    ∀ (ls : List String) (nr : Nat) (c : Section),
    (∀ l ∈ ls, ∀ hd, f l = some hd → hd = l ∧ l ≠ "") → c.Name ≠ "" →
    reconstructSections (spLoop f nr (some c) ls) =
      c.Name ++ "\n" ++ c.Value ++ joinLines ls := by
  intro ls
  induction ls with
  | nil =>
    intro nr c _ hn
    show reconstructSections [c] = _
    simp only [reconstructSections, if_neg hn, joinLines, strAppend_nil]
  | cons l ls ih =>
    intro nr c hw hn
    have hwtail : ∀ x ∈ ls, ∀ hd, f x = some hd → hd = x ∧ x ≠ "" :=
      fun x hx hd hfd => hw x (List.mem_cons_of_mem l hx) hd hfd
    simp only [spLoop]
    cases hf : f l with
    | some name =>
      obtain ⟨hnl, hne⟩ := hw l (List.mem_cons_self l ls) name hf
      have ihr := ih (nr + 1) ⟨nr, l, ""⟩ hwtail hne
      simp only [reconstructSections, if_neg hn, joinLines, hnl, ihr]
      simp [strAppend_assoc, strNil_append, strAppend_nil]
    | none =>
      have ihr := ih (nr + 1) ⟨c.LineNr, c.Name, c.Value ++ l ++ "\n"⟩ hwtail hn
      simp only [ihr, joinLines]
      simp [strAppend_assoc]

theorem strEq_of_data (a b : String) (h : a.data = b.data) : a = b := by
  obtain ⟨x⟩ := a
  obtain ⟨y⟩ := b
  simp only at h
  rw [h]

/-! Concrete dialog fixtures used to instantiate the theorems below. -/

def noComplete : String → Nat → List String × Nat := fun _ _ => ([], 0)

def listComplete : String → Nat → List String × Nat := fun s n => ([s ++ "o", s ++ "od"], n)

def runWith (rls : List testCaseReadline) : testCaseRun :=
  { lineNr := 1, command := " fq repl", env := [], args := ["fq", "repl"], stdin := "",
    expectedStdout := "", expectedStderr := "", expectedExitCode := 0,
    actualStdoutBuf := "", actualStderrBuf := "", actualExitCode := 0,
    readlines := rls, readlinesPos := 0, readlineEnv := [] }

def fooTurn : testCaseReadline := ⟨"FOO=bar x", ["FOO=bar"], "x", "> ", ""⟩

def plainTurn : testCaseReadline := ⟨"y", [], "y", "> ", ""⟩

def twoTurnRun : testCaseRun := runWith [fooTurn, plainTurn]

def tabTurn : testCaseReadline := ⟨"fo\\t", [], "fo\\t", "fq> ", ""⟩

def eodTurn : testCaseReadline := ⟨"^D", [], "^D", "fq> ", ""⟩

/-- C1 counterexample: the claim asserts that after a turn carrying override
FOO=bar is consumed, getEnv FOO yields bar during every later turn of the
invocation even when later turns carry no overrides.  In the code
Readline assigns (not appends) the consumed turn's env to readlineEnv, so
consuming the second override-free turn clears the override: getEnv then
yields the empty string, not bar. -/
theorem C1_counterexample :
    getEnv ((Readline twoTurnRun "> " noComplete).1) "FOO" = "bar" ∧
    getEnv ((Readline ((Readline twoTurnRun "> " noComplete).1) "> " noComplete).1) "FOO" = "" ∧
    ("" : String) ≠ "bar" := by
  decide

/-- C1 (amended): environment assignments parsed from a dialog turn's input
take effect when that turn is consumed: they leave the invocation's base
assignments untouched and the merged environment is computed from the fixed
base environment, then the invocation assignments, then the consumed turn's
overrides, with later assignments of the same key shadowing earlier ones.
But the overrides persist only until the next turn is consumed: each call
replaces readlineEnv with the consumed turn's own (possibly empty) override
list, so they do not persist for all subsequent turns. -/
theorem C1_env_override (tcr : testCaseRun) (prompt : String)
    (complete : String → Nat → List String × Nat)
    (rl : testCaseReadline) (rest : List testCaseReadline)
    (hdrop : tcr.readlines.drop tcr.readlinesPos = rl :: rest) :
    ((Readline tcr prompt complete).1).readlineEnv = rl.env ∧
    ((Readline tcr prompt complete).1).env = tcr.env ∧
    Environ ((Readline tcr prompt complete).1) =
      envmList (baseEnvList ++ tcr.env ++ rl.env) := by
  by_cases htab : dataSuf "\t" (Unescape rl.input) = true
  · rw [Readline_tab tcr prompt complete rl rest hdrop htab]
    exact ⟨rfl, rfl, rfl⟩
  · have htab2 : dataSuf "\t" (Unescape rl.input) = false := by
      cases h : dataSuf "\t" (Unescape rl.input) with
      | false => rfl
      | true => exact absurd h htab
    by_cases hD : Unescape rl.input = "^D"
    · rw [Readline_eod tcr prompt complete rl rest hdrop htab2 hD]
      exact ⟨rfl, rfl, rfl⟩
    · rw [Readline_deliver tcr prompt complete rl rest hdrop htab2 hD]
      exact ⟨rfl, rfl, rfl⟩

theorem C1_env_override_witness :
    ((Readline twoTurnRun "> " noComplete).1).readlineEnv = fooTurn.env ∧
    ((Readline twoTurnRun "> " noComplete).1).env = twoTurnRun.env ∧
    Environ ((Readline twoTurnRun "> " noComplete).1) =
      envmList (baseEnvList ++ twoTurnRun.env ++ fooTurn.env) :=
  C1_env_override twoTurnRun "> " noComplete fooTurn [plainTurn] (by decide)

/-- C5: a dialog turn whose decoded literal input ends in a tab is a
completion request: the prefix before the tab is exactly the decoded input
minus the trailing tab; Readline echoes the prompt, then the raw un-decoded
input line and a newline, invokes the tool-supplied completion callback with
that prefix and the cursor position equal to the prefix length, echoes every
returned candidate followed by a newline, and returns the empty line with no
error, advancing to the next turn. -/
theorem C5_completion (tcr : testCaseRun) (prompt : String)
    (complete : String → Nat → List String × Nat)
    (rl : testCaseReadline) (rest : List testCaseReadline)
    (hdrop : tcr.readlines.drop tcr.readlinesPos = rl :: rest)
    (htab : dataSuf "\t" (Unescape rl.input) = true) :
    strTake ((Unescape rl.input).data.length - 1) (Unescape rl.input) ++ "\t" =
      Unescape rl.input ∧
    Readline tcr prompt complete =
      ({ tcr with
          actualStdoutBuf := tcr.actualStdoutBuf ++ prompt ++ rl.input ++ "\n" ++
            strConcat
              (((complete (strTake ((Unescape rl.input).data.length - 1) (Unescape rl.input))
                  ((Unescape rl.input).data.length - 1)).1).map fun nl => nl ++ "\n")
          readlineEnv := rl.env
          readlinesPos := tcr.readlinesPos + 1 }, "", false) := by
  constructor
  · have hsuf : ['\t'] <:+ (Unescape rl.input).data := by
      have := htab
      unfold dataSuf at this
      exact List.isSuffixOf_iff_suffix.mp this
    obtain ⟨pre, hpre⟩ := hsuf
    have hlen : (Unescape rl.input).data.length = pre.length + 1 := by
      rw [← hpre]
      simp
    have ht : (Unescape rl.input).data.take ((Unescape rl.input).data.length - 1) = pre := by
      rw [hlen, Nat.add_sub_cancel]
      conv_lhs => rw [← hpre]
      exact List.take_left pre ['\t']
    apply strEq_of_data
    rw [strData_append]
    show (Unescape rl.input).data.take ((Unescape rl.input).data.length - 1) ++ ['\t'] =
      (Unescape rl.input).data
    rw [ht, hpre]
  · exact Readline_tab tcr prompt complete rl rest hdrop htab

theorem C5_completion_witness :
    strTake ((Unescape tabTurn.input).data.length - 1) (Unescape tabTurn.input) ++ "\t" =
      Unescape tabTurn.input ∧
    Readline (runWith [tabTurn]) "fq> " listComplete =
      ({ runWith [tabTurn] with
          actualStdoutBuf := (runWith [tabTurn]).actualStdoutBuf ++ "fq> " ++ tabTurn.input ++ "\n" ++
            strConcat
              (((listComplete
                  (strTake ((Unescape tabTurn.input).data.length - 1) (Unescape tabTurn.input))
                  ((Unescape tabTurn.input).data.length - 1)).1).map fun nl => nl ++ "\n")
          readlineEnv := tabTurn.env
          readlinesPos := (runWith [tabTurn]).readlinesPos + 1 }, "", false) :=
  C5_completion (runWith [tabTurn]) "fq> " listComplete tabTurn [] (by decide) (by decide)

/-- C6: Readline signals end-of-stream exactly when no dialog turns remain
or when the consumed turn's decoded literal input does not end in a tab and
equals the end-of-input sentinel; otherwise, in the non-completion case it
returns the decoded literal input as the read line with no error, and in the
sentinel case it delivers no line. -/
theorem C6_eof_iff (tcr : testCaseRun) (prompt : String)
    (complete : String → Nat → List String × Nat) :
    ((Readline tcr prompt complete).2.2 = true ↔
      (tcr.readlines.length ≤ tcr.readlinesPos ∨
        ∃ rl rest, tcr.readlines.drop tcr.readlinesPos = rl :: rest ∧
          dataSuf "\t" (Unescape rl.input) = false ∧ Unescape rl.input = "^D")) ∧
    (∀ rl rest, tcr.readlines.drop tcr.readlinesPos = rl :: rest →
      dataSuf "\t" (Unescape rl.input) = false → Unescape rl.input ≠ "^D" →
      (Readline tcr prompt complete).2 = (Unescape rl.input, false)) ∧
    (∀ rl rest, tcr.readlines.drop tcr.readlinesPos = rl :: rest →
      dataSuf "\t" (Unescape rl.input) = false → Unescape rl.input = "^D" →
      (Readline tcr prompt complete).2.1 = "") := by
  rcases hdrop : tcr.readlines.drop tcr.readlinesPos with _ | ⟨rl, rest⟩
  · have hlen : tcr.readlines.length ≤ tcr.readlinesPos := List.drop_eq_nil_iff.mp hdrop
    rw [Readline_exhausted tcr prompt complete hlen]
    refine ⟨⟨fun _ => Or.inl hlen, fun _ => rfl⟩, ?_, ?_⟩
    · intro rl rest h
      cases h
    · intro rl rest h
      cases h
  · have hpos : tcr.readlinesPos < tcr.readlines.length := by
      by_contra hle
      rw [List.drop_eq_nil_of_le (Nat.le_of_not_lt hle)] at hdrop
      cases hdrop
    by_cases htab : dataSuf "\t" (Unescape rl.input) = true
    · rw [Readline_tab tcr prompt complete rl rest hdrop htab]
      refine ⟨⟨fun h => absurd h (by simp), ?_⟩, ?_, ?_⟩
      · rintro (hle | ⟨rl2, rest2, hd2, htab2, _⟩)
        · omega
        · injection hd2 with h1 _
          rw [← h1, htab] at htab2
          cases htab2
      · intro rl2 rest2 hd2 htab2 _
        injection hd2 with h1 _
        rw [← h1, htab] at htab2
        cases htab2
      · intro rl2 rest2 hd2 htab2 _
        rfl
    · have htab2 : dataSuf "\t" (Unescape rl.input) = false := by
        cases h : dataSuf "\t" (Unescape rl.input) with
        | false => rfl
        | true => exact absurd h htab
      by_cases hD : Unescape rl.input = "^D"
      · rw [Readline_eod tcr prompt complete rl rest hdrop htab2 hD]
        refine ⟨⟨fun _ => Or.inr ⟨rl, rest, rfl, htab2, hD⟩, fun _ => rfl⟩, ?_, ?_⟩
        · intro rl2 rest2 hd2 _ hD2
          injection hd2 with h1 _
          rw [← h1] at hD2
          exact absurd hD hD2
        · intro _ _ _ _ _
          rfl
      · rw [Readline_deliver tcr prompt complete rl rest hdrop htab2 hD]
        refine ⟨⟨fun h => absurd h (by simp), ?_⟩, ?_, ?_⟩
        · rintro (hle | ⟨rl2, rest2, hd2, _, hD2⟩)
          · omega
          · injection hd2 with h1 _
            rw [← h1] at hD2
            exact absurd hD2 hD
        · intro rl2 rest2 hd2 _ _
          injection hd2 with h1 _
          rw [h1]
        · intro rl2 rest2 hd2 _ hD2
          injection hd2 with h1 _
          rw [← h1] at hD2
          exact absurd hD2 hD

theorem C6_eof_iff_witness :
    ((Readline (runWith [eodTurn]) "fq> " noComplete).2.2 = true) ∧
    ((Readline (runWith [eodTurn]) "fq> " noComplete).2.1 = "") ∧
    ((Readline (runWith [plainTurn]) "fq> " noComplete).2 = (Unescape plainTurn.input, false)) :=
  ⟨(C6_eof_iff (runWith [eodTurn]) "fq> " noComplete).1.mpr
      (Or.inr ⟨eodTurn, [], by decide, by decide, by decide⟩),
   (C6_eof_iff (runWith [eodTurn]) "fq> " noComplete).2.2 eodTurn [] (by decide) (by decide)
      (by decide),
   (C6_eof_iff (runWith [plainTurn]) "fq> " noComplete).2.1 plainTurn [] (by decide) (by decide)
      (by decide)⟩

/-- C10: every Readline call appends the prompt to captured stdout before
anything else, including the call made after the turns are exhausted, where
end-of-stream is signaled only after the prompt was written; consequently a
session driven to exhaustion (with no end-of-input sentinel turn) makes one
more prompt-writing call than there are consumed turns: the final captured
stdout is the initial buffer, then one prompt-plus-echo block per turn, then
one final prompt. -/
theorem C10_prompt_counting :
    (∀ (tcr : testCaseRun) (prompt : String) (complete : String → Nat → List String × Nat),
      ∃ restOut : String, ((Readline tcr prompt complete).1).actualStdoutBuf =
        tcr.actualStdoutBuf ++ (prompt ++ restOut)) ∧
    (∀ (tcr : testCaseRun) (prompt : String) (complete : String → Nat → List String × Nat),
      tcr.readlines.length ≤ tcr.readlinesPos →
      Readline tcr prompt complete =
        ({ tcr with actualStdoutBuf := tcr.actualStdoutBuf ++ prompt }, "", true)) ∧
    (∀ (tcr : testCaseRun) (prompt : String) (complete : String → Nat → List String × Nat)
        (fuel : Nat),
      tcr.readlinesPos = 0 →
      (∀ rl ∈ tcr.readlines, Unescape rl.input ≠ "^D") →
      tcr.readlines.length + 1 ≤ fuel →
      (drive prompt complete fuel tcr).2 = tcr.readlines.length + 1 ∧
      ((drive prompt complete fuel tcr).1).actualStdoutBuf =
        tcr.actualStdoutBuf ++
          strConcat (tcr.readlines.map fun rl => prompt ++ turnEcho complete rl) ++ prompt) := by
  refine ⟨?_, ?_, ?_⟩
  · intro tcr prompt complete
    rcases hdrop : tcr.readlines.drop tcr.readlinesPos with _ | ⟨rl, rest⟩
    · refine ⟨"", ?_⟩
      rw [Readline_exhausted tcr prompt complete (List.drop_eq_nil_iff.mp hdrop)]
      show tcr.actualStdoutBuf ++ prompt = _
      rw [strAppend_nil]
    · by_cases htab : dataSuf "\t" (Unescape rl.input) = true
      · refine ⟨rl.input ++ ("\n" ++
          strConcat
            (((complete (strTake ((Unescape rl.input).data.length - 1) (Unescape rl.input))
                ((Unescape rl.input).data.length - 1)).1).map fun nl => nl ++ "\n")), ?_⟩
        rw [Readline_tab tcr prompt complete rl rest hdrop htab]
        show tcr.actualStdoutBuf ++ prompt ++ rl.input ++ "\n" ++ _ = _
        simp [strAppend_assoc]
      · have htab2 : dataSuf "\t" (Unescape rl.input) = false := by
          cases h : dataSuf "\t" (Unescape rl.input) with
          | false => rfl
          | true => exact absurd h htab
        by_cases hD : Unescape rl.input = "^D"
        · refine ⟨rl.expr ++ "\n", ?_⟩
          rw [Readline_eod tcr prompt complete rl rest hdrop htab2 hD]
          show tcr.actualStdoutBuf ++ prompt ++ rl.expr ++ "\n" = _
          simp [strAppend_assoc]
        · refine ⟨rl.expr ++ "\n", ?_⟩
          rw [Readline_deliver tcr prompt complete rl rest hdrop htab2 hD]
          show tcr.actualStdoutBuf ++ prompt ++ rl.expr ++ "\n" = _
          simp [strAppend_assoc]
  · intro tcr prompt complete hlen
    exact Readline_exhausted tcr prompt complete hlen
  · intro tcr prompt complete fuel hpos hD hfuel
    have hdrop : tcr.readlines.drop tcr.readlinesPos = tcr.readlines := by
      rw [hpos, List.drop_zero]
    exact drive_all prompt complete tcr.readlines tcr fuel hdrop hD hfuel

theorem C10_prompt_counting_witness :
    (drive "p> " noComplete 3 twoTurnRun).2 = twoTurnRun.readlines.length + 1 ∧
    ((drive "p> " noComplete 3 twoTurnRun).1).actualStdoutBuf =
      twoTurnRun.actualStdoutBuf ++
        strConcat (twoTurnRun.readlines.map fun rl => "p> " ++ turnEcho noComplete rl) ++ "p> " :=
  C10_prompt_counting.2.2 twoTurnRun "p> " noComplete 3 (by decide) (by decide) (by decide)

/-- C2 counterexample: for the transcript consisting of the single
non-boundary line hello, SectionParser yields one section with empty header
and empty body — the text of the first line is stored nowhere — so the
concatenation prescribed by the claim yields the empty string, not the
original text: the lexing is not lossless. -/
theorem C2_counterexample :
    reconstructSections (SectionParser fqBoundary "hello\n") = "" ∧
    ("" : String) ≠ "hello\n" := by
  constructor
  · rfl
  · decide

/-- C2 (amended): concatenating each section's header line plus a newline
(omitting the header line when the header is empty) followed by its body
reconstructs the input exactly, provided that the input is empty or ends in
a newline, that every line on which the boundary matcher fires is matched
wholly (the reported header is the entire, non-empty line), and that the
very first line is a boundary line.  When the first line is not a boundary
line the code starts the implicit zero-header section but drops the line's
own text, so reconstruction loses that line. -/
theorem C2_lossless (f : String → Option String) (s : String)
    (h1 : s.data = [] ∨ s.data.getLast? = some '\n')
    (h2 : ∀ l ∈ splitLines s, ∀ hd, f l = some hd → hd = l ∧ l ≠ "")
    (h3 : ∀ l0 ls, splitLines s = l0 :: ls → (f l0).isSome = true) :
    reconstructSections (SectionParser f s) = s := by
  have hjoin := joinLines_splitLines s h1
  rcases he : splitLines s with _ | ⟨l0, ls⟩
  · rw [he] at hjoin
    show reconstructSections (spLoop f 1 none (splitLines s)) = s
    rw [he]
    exact hjoin
  · have hsome := h3 l0 ls he
    obtain ⟨name, hf⟩ : ∃ hd, f l0 = some hd := Option.isSome_iff_exists.mp hsome
    rw [he] at h2 hjoin
    obtain ⟨hnl, hne⟩ := h2 l0 (List.mem_cons_self l0 ls) name hf
    show reconstructSections (spLoop f 1 none (splitLines s)) = s
    rw [he]
    simp only [spLoop, hf]
    have hrec := spLoop_reconstruct f ls 2 ⟨1, name, ""⟩
      (fun x hx hd hfd => h2 x (List.mem_cons_of_mem l0 hx) hd hfd)
      (by rw [hnl]; exact hne)
    rw [hrec]
    show name ++ "\n" ++ "" ++ joinLines ls = s
    rw [strAppend_nil, hnl, ← hjoin]
    rfl

theorem C2_lossless_witness :
    reconstructSections (SectionParser fqBoundary "$ a\nb\n") = "$ a\nb\n" := by
  refine C2_lossless fqBoundary "$ a\nb\n" (Or.inr (by decide)) ?_ ?_
  · intro l hl hd hfd
    have hsl : splitLines "$ a\nb\n" = ["$ a", "b"] := by decide
    rw [hsl] at hl
    rcases List.mem_cons.mp hl with h | h
    · subst h
      have : fqBoundary "$ a" = some "$ a" := by decide
      rw [this] at hfd
      injection hfd with h2
      exact ⟨h2.symm, by decide⟩
    · rcases List.mem_cons.mp h with h4 | h4
      · subst h4
        have : fqBoundary "b" = none := by decide
        rw [this] at hfd
        cases hfd
      · cases h4
  · intro l0 ls he
    have hsl : splitLines "$ a\nb\n" = ["$ a", "b"] := by decide
    rw [hsl] at he
    injection he with h1 _
    rw [← h1]
    decide

/-- C4 counterexample: the escape payload ZZ is not two hex digits, so per
the claim the sequence should pass through unchanged; but Z lies inside the
character class of the Go pattern (the ASCII range from 0 to f), so the
regexp matches and hex.DecodeString fails, its error is discarded and the
match is replaced by the empty string: the escape is silently dropped. -/
theorem C4_counterexample :
    Unescape "\\0xZZ" = "" ∧ Unescape "\\0xZZ" ≠ "\\0xZZ" := by
  decide

/-- C4 (amended): Unescape replaces backslash n, r, t, b by the single
control byte; a 0x escape whose two payload characters are in the class
from 0 to f decodes to that byte when both are valid hex digits, and is
dropped (decodes to nothing) otherwise; a 0b escape with eight binary digits
decodes to that byte; the concrete scenarios of the spec hold; text without
recognized escapes passes through unchanged; the function is total. -/
theorem C4_unescape_amended :
    (∀ rest : List Char,
      unescapeCore ('\\' :: 'n' :: rest) = '\n' :: unescapeCore rest ∧
      unescapeCore ('\\' :: 'r' :: rest) = '\r' :: unescapeCore rest ∧
      unescapeCore ('\\' :: 't' :: rest) = '\t' :: unescapeCore rest ∧
      unescapeCore ('\\' :: 'b' :: rest) = Char.ofNat 8 :: unescapeCore rest) ∧
    (∀ (h1 h2 : Char) (rest : List Char) (a b : Nat),
      inHexClass h1 = true → inHexClass h2 = true →
      hexVal? h1 = some a → hexVal? h2 = some b →
      unescapeCore ('\\' :: '0' :: 'x' :: h1 :: h2 :: rest) =
        Char.ofNat (16 * a + b) :: unescapeCore rest) ∧
    (∀ (h1 h2 : Char) (rest : List Char),
      inHexClass h1 = true → inHexClass h2 = true →
      (hexVal? h1 = none ∨ hexVal? h2 = none) →
      unescapeCore ('\\' :: '0' :: 'x' :: h1 :: h2 :: rest) = unescapeCore rest) ∧
    (∀ (b1 b2 b3 b4 b5 b6 b7 b8 : Char) (rest : List Char),
      isBin b1 = true → isBin b2 = true → isBin b3 = true → isBin b4 = true →
      isBin b5 = true → isBin b6 = true → isBin b7 = true → isBin b8 = true →
      unescapeCore ('\\' :: '0' :: 'b' :: b1 :: b2 :: b3 :: b4 :: b5 :: b6 :: b7 :: b8 :: rest) =
        Char.ofNat ((((((((bitv b1) * 2 + bitv b2) * 2 + bitv b3) * 2 + bitv b4) * 2 +
          bitv b5) * 2 + bitv b6) * 2 + bitv b7) * 2 + bitv b8) :: unescapeCore rest) ∧
    Unescape "\\0x41" = "A" ∧ Unescape "\\0b01000001" = "A" ∧
    Unescape "no escapes" = "no escapes" := by
  refine ⟨?_, ?_, ?_, ?_, by decide, by decide, by decide⟩
  · intro rest
    exact ⟨rfl, rfl, rfl, rfl⟩
  · intro h1 h2 rest a b hc1 hc2 hv1 hv2
    simp only [unescapeCore, hc1, hc2, Bool.and_self, if_true, hv1, hv2]
  · intro h1 h2 rest hc1 hc2 hv
    rcases hv with hv1 | hv2
    · simp only [unescapeCore, hc1, hc2, Bool.and_self, if_true, hv1]
    · cases hv1 : hexVal? h1 with
      | none => simp only [unescapeCore, hc1, hc2, Bool.and_self, if_true, hv1]
      | some a => simp only [unescapeCore, hc1, hc2, Bool.and_self, if_true, hv1, hv2]
  · intro b1 b2 b3 b4 b5 b6 b7 b8 rest h1 h2 h3 h4 h5 h6 h7 h8
    simp only [unescapeCore, h1, h2, h3, h4, h5, h6, h7, h8, Bool.and_self, if_true]

theorem C4_unescape_amended_witness :
    inHexClass '4' = true ∧ inHexClass '1' = true ∧
    hexVal? '4' = some 4 ∧ hexVal? '1' = some 1 ∧
    unescapeCore ['\\', '0', 'x', '4', '1'] = Char.ofNat (16 * 4 + 1) :: unescapeCore [] :=
  ⟨by decide, by decide, by decide, by decide,
    C4_unescape_amended.2.1 '4' '1' [] 4 1 (by decide) (by decide) (by decide) (by decide)⟩

/-! Helper lemmas about header dispatch in processSection. -/

theorem isPrefixOf_single_cons (c d : Char) (t : List Char) :
    [c].isPrefixOf (d :: t) = (c == d) := by
  simp [List.isPrefixOf]

theorem dataPre_head (p s : String) (c : Char) (rest : List Char)
    (hp : p.data = c :: rest) (h : dataPre p s = true) :
    ∃ t, s.data = c :: t := by
  unfold dataPre at h
  obtain ⟨t, ht⟩ := List.isPrefixOf_iff_prefix.mp h
  rw [hp] at ht
  exact ⟨rest ++ t, by rw [← ht]; rfl⟩

theorem runsOf_append (a b : List part) : runsOf (a ++ b) = runsOf a ++ runsOf b :=
  List.filterMap_append a b _

theorem iteEmpty (x : String) : (if x = "" then "" else x) = x := by
  split
  case isTrue h => exact h.symm
  case isFalse => rfl

def recognizedName (n : String) : Bool :=
  dataPre "#" n || dataPre "/" n || dataPre "$" n || dataPre "exitcode:" n ||
  dataPre "stdin" n || dataPre "stderr" n || n.data.contains '>'

theorem processSection_unrecognized (st : ParseState) (sec : Section)
    (h : recognizedName sec.Name = false) :
    processSection st sec = .error ("unexpected section at line " ++ toString sec.LineNr) := by
  unfold recognizedName at h
  simp only [Bool.or_eq_false_iff] at h
  obtain ⟨⟨⟨⟨⟨⟨h1, h2⟩, h3⟩, h4⟩, h5⟩, h6⟩, h7⟩ := h
  have h7m : '>' ∉ sec.Name.data := by simpa using h7
  simp [processSection, h1, h2, h3, h4, h5, h6, h7m]

theorem runSections_error : ∀ (ss : List Section) (st : ParseState),
    (∃ sec ∈ ss, recognizedName sec.Name = false) →
    ∃ e, runSections st ss = .error e := by
  intro ss
  induction ss with
  | nil =>
    rintro st ⟨sec, hmem, _⟩
    cases hmem
  | cons sec rest ih =>
    rintro st ⟨sec2, hmem, hbad⟩
    rcases List.mem_cons.mp hmem with heq | hmem2
    · subst heq
      exact ⟨"unexpected section at line " ++ toString sec2.LineNr,
        by simp [runSections, processSection_unrecognized st sec2 hbad]⟩
    · cases hps : processSection st sec with
      | error e => exact ⟨e, by simp [runSections, hps]⟩
      | ok st1 =>
        obtain ⟨e, he⟩ := ih st1 ⟨sec2, hmem2, hbad⟩
        exact ⟨e, by simp [runSections, hps, he]⟩

/-- C9: parsing aborts with a fatal error on any section whose header
matches none of the recognized shapes — comment, fixture, invocation,
exitcode, stdin, stderr, or a line containing the prompt terminator — and is
never silently ignored; this covers the implicit empty-header first section
produced when a transcript's first line is not a boundary line, since the
empty header matches none of the shapes. -/
theorem C9_unrecognized_fatal (s : String)
    (h : ∃ sec ∈ SectionParser fqBoundary s, recognizedName sec.Name = false) :
    ∃ e, parseTestCases s = .error e := by
  unfold parseTestCases
  exact runSections_error (SectionParser fqBoundary s) ⟨[], none, 0⟩ h

theorem C9_unrecognized_fatal_witness :
    recognizedName "" = false ∧ (∃ e, parseTestCases "hello\n" = .error e) :=
  ⟨by decide, C9_unrecognized_fatal "hello\n" ⟨⟨1, "", ""⟩, by decide, by decide⟩⟩

/-- C7: the expected stdout used by the comparator: an invocation section
records as expectedStdout its body with a trailing backslash-newline
continuation marker stripped and starts with no dialog turns; for a run
without dialog turns ToExpectedStdout is exactly that text, and for a run
with dialog turns it is the in-order concatenation over the turns of the
expected prompt, the expression, a newline and the expected output. -/
theorem C7_expected_stdout :
    (∀ (st : ParseState) (sec : Section), dataPre "$" sec.Name = true →
      ∃ st1, processSection st sec = .ok st1 ∧
        ∃ c, st1.current = some c ∧
          c.expectedStdout = trimSuffixStr sec.Value "\\\n" ∧ c.readlines = []) ∧
    (∀ tcr : testCaseRun, tcr.readlines = [] → ToExpectedStdout tcr = tcr.expectedStdout) ∧
    (∀ tcr : testCaseRun, tcr.readlines ≠ [] →
      ToExpectedStdout tcr =
        strConcat (tcr.readlines.map fun rl =>
          rl.expectedPrompt ++ rl.expr ++ "\n" ++ rl.expectedStdout)) := by
  refine ⟨?_, ?_, ?_⟩
  · intro st sec hd
    obtain ⟨t, hn⟩ := dataPre_head "$" sec.Name '$' [] rfl hd
    have h1 : dataPre "#" sec.Name = false := by
      unfold dataPre
      rw [show ("#" : String).data = ['#'] from rfl, hn, isPrefixOf_single_cons]
      decide
    have h2 : dataPre "/" sec.Name = false := by
      unfold dataPre
      rw [show ("/" : String).data = ['/'] from rfl, hn, isPrefixOf_single_cons]
      decide
    unfold processSection
    simp only [h1, h2, hd, Bool.false_eq_true, if_false, if_true]
    exact ⟨_, rfl, newRun sec.LineNr (trimPrefixStr sec.Name "$") (trimSuffixStr sec.Value "\\\n"),
      rfl, rfl, rfl⟩
  · intro tcr h
    unfold ToExpectedStdout
    rw [h]
    rfl
  · intro tcr h
    have hne : tcr.readlines.isEmpty = false := by
      cases hl : tcr.readlines with
      | nil => exact absurd hl h
      | cons a l => rfl
    unfold ToExpectedStdout
    rw [hne]
    show strConcat (tcr.readlines.map fun rl =>
        rl.expectedPrompt ++ rl.expr ++ "\n" ++
          (if rl.expectedStdout = "" then "" else rl.expectedStdout)) = _
    have hfun : (fun rl : testCaseReadline =>
        rl.expectedPrompt ++ rl.expr ++ "\n" ++
          (if rl.expectedStdout = "" then "" else rl.expectedStdout)) =
        (fun rl : testCaseReadline =>
          rl.expectedPrompt ++ rl.expr ++ "\n" ++ rl.expectedStdout) := by
      funext rl
      rw [iteEmpty]
    rw [hfun]

theorem C7_expected_stdout_witness :
    (∃ st1, processSection ⟨[], none, 0⟩ ⟨1, "$ echo hi", "hi\n"⟩ = .ok st1 ∧
      ∃ c, st1.current = some c ∧
        c.expectedStdout = trimSuffixStr "hi\n" "\\\n" ∧ c.readlines = []) ∧
    ToExpectedStdout (runWith []) = (runWith []).expectedStdout ∧
    ToExpectedStdout (runWith [fooTurn]) =
      strConcat ([fooTurn].map fun rl =>
        rl.expectedPrompt ++ rl.expr ++ "\n" ++ rl.expectedStdout) :=
  ⟨C7_expected_stdout.1 ⟨[], none, 0⟩ ⟨1, "$ echo hi", "hi\n"⟩ (by decide),
   C7_expected_stdout.2.1 (runWith []) (by decide),
   C7_expected_stdout.2.2 (runWith [fooTurn]) (by decide)⟩

/-- C8: the rewrite serialization renders the parts sorted in ascending line
number order (a permutation of the original parts); an invocation renders as
its command line, the captured actual stdout with a continuation marker
exactly when the non-empty stdout lacks a trailing newline, an exitcode line
exactly when the actual exit code is nonzero, a stdin block exactly when
stdin is non-empty and a stderr block exactly when captured stderr is
non-empty; and in rewrite mode only transcripts with at least one actually
replayed invocation are written back. -/
theorem C8_rewrite_serialization :
    (∀ tc : testCase,
      List.Sorted lineLe (tc.parts.insertionSort lineLe) ∧
      (tc.parts.insertionSort lineLe).Perm tc.parts ∧
      ToActual tc = strConcat ((tc.parts.insertionSort lineLe).map renderPart)) ∧
    (∀ p : testCaseRun,
      renderPart (part.run p) =
        "$" ++ p.command ++ "\n" ++ p.actualStdoutBuf ++
        (if p.actualStdoutBuf ≠ "" ∧ dataSuf "\n" p.actualStdoutBuf = false then "\\\n" else "") ++
        (if p.actualExitCode ≠ 0 then "exitcode: " ++ toString p.actualExitCode ++ "\n" else "") ++
        (if p.stdin ≠ "" then "stdin:\n" ++ p.stdin else "") ++
        (if p.actualStderrBuf ≠ "" then "stderr:\n" ++ p.actualStderrBuf else "")) ∧
    (∀ (tcs : List testCase) (tc : testCase),
      tc ∈ rewriteTargets tcs ↔ tc ∈ tcs ∧ tc.wasTested = true) := by
  refine ⟨?_, ?_, ?_⟩
  · intro tc
    exact ⟨List.sorted_insertionSort lineLe tc.parts, List.perm_insertionSort lineLe tc.parts, rfl⟩
  · intro p
    unfold renderPart
    by_cases hs : p.actualStdoutBuf = ""
    · simp [hs, strAppend_nil, strAppend_assoc]
    · by_cases hnl : dataSuf "\n" p.actualStdoutBuf = true
      · simp [hs, hnl, strAppend_nil, strAppend_assoc]
      · have hnl2 : dataSuf "\n" p.actualStdoutBuf = false := by
          cases hx : dataSuf "\n" p.actualStdoutBuf with
          | false => rfl
          | true => exact absurd hx hnl
        simp [hs, hnl2, strAppend_nil, strAppend_assoc]
  · intro tcs tc
    simp [rewriteTargets, List.mem_filter]

theorem processSection_zero (st : ParseState) (sec : Section) (st1 : ParseState)
    (hne : dataPre "exitcode:" sec.Name = false)
    (hparts : ∀ r ∈ runsOf st.parts, r.expectedExitCode = 0)
    (hcur : ∀ c, st.current = some c → c.expectedExitCode = 0)
    (h : processSection st sec = .ok st1) :
    (∀ r ∈ runsOf st1.parts, r.expectedExitCode = 0) ∧
    (∀ c, st1.current = some c → c.expectedExitCode = 0) := by
  unfold processSection at h
  by_cases h1 : dataPre "#" sec.Name = true
  · rw [if_pos h1] at h
    injection h with h9
    subst h9
    refine ⟨?_, hcur⟩
    intro r hr
    simp only [runsOf_append] at hr
    rcases List.mem_append.mp hr with h2 | h2
    · exact hparts r h2
    · simp [runsOf] at h2
  rw [if_neg h1] at h
  by_cases h2 : dataPre "/" sec.Name = true
  · rw [if_pos h2] at h
    injection h with h9
    subst h9
    refine ⟨?_, hcur⟩
    intro r hr
    simp only [runsOf_append] at hr
    rcases List.mem_append.mp hr with h3 | h3
    · exact hparts r h3
    · simp [runsOf] at h3
  rw [if_neg h2] at h
  by_cases h3 : dataPre "$" sec.Name = true
  · rw [if_pos h3] at h
    cases hc : st.current with
    | none =>
      simp only [hc] at h
      injection h with h9
      subst h9
      refine ⟨hparts, ?_⟩
      intro c2 hc2
      injection hc2 with h10
      rw [← h10]
      rfl
    | some c =>
      simp only [hc] at h
      injection h with h9
      subst h9
      constructor
      · intro r hr
        simp only [runsOf_append] at hr
        rcases List.mem_append.mp hr with h4 | h4
        · exact hparts r h4
        · have h5 : r = c := by simpa [runsOf] using h4
          rw [h5]
          exact hcur c hc
      · intro c2 hc2
        injection hc2 with h10
        rw [← h10]
        rfl
  rw [if_neg h3] at h
  have h4 : ¬dataPre "exitcode:" sec.Name = true := by
    rw [hne]
    simp
  rw [if_neg h4] at h
  by_cases h5 : dataPre "stdin" sec.Name = true
  · rw [if_pos h5] at h
    cases hc : st.current with
    | none =>
      simp only [hc] at h
      cases h
    | some c =>
      simp only [hc] at h
      injection h with h9
      subst h9
      refine ⟨hparts, ?_⟩
      intro c2 hc2
      injection hc2 with h10
      rw [← h10]
      exact hcur c hc
  rw [if_neg h5] at h
  by_cases h6 : dataPre "stderr" sec.Name = true
  · rw [if_pos h6] at h
    cases hc : st.current with
    | none =>
      simp only [hc] at h
      cases h
    | some c =>
      simp only [hc] at h
      injection h with h9
      subst h9
      refine ⟨hparts, ?_⟩
      intro c2 hc2
      injection hc2 with h10
      rw [← h10]
      exact hcur c hc
  rw [if_neg h6] at h
  by_cases h7 : sec.Name.data.contains '>' = true
  · rw [if_pos h7] at h
    cases hi : lastIdxOf '>' sec.Name with
    | none =>
      simp only [hi] at h
      cases h
    | some i =>
      simp only [hi] at h
      cases hc : st.current with
      | none =>
        simp only [hc] at h
        cases h
      | some c =>
        simp only [hc] at h
        injection h with h9
        subst h9
        refine ⟨hparts, ?_⟩
        intro c2 hc2
        injection hc2 with h10
        rw [← h10]
        exact hcur c hc
  · rw [if_neg h7] at h
    cases h

theorem runSections_zero : ∀ (ss : List Section) (st : ParseState),
    (∀ sec ∈ ss, dataPre "exitcode:" sec.Name = false) →
    (∀ r ∈ runsOf st.parts, r.expectedExitCode = 0) →
    (∀ c, st.current = some c → c.expectedExitCode = 0) →
    ∀ tc, runSections st ss = .ok tc →
    ∀ r ∈ runsOf tc.parts, r.expectedExitCode = 0 := by
  intro ss
  induction ss with
  | nil =>
    intro st _ hparts hcur tc h r hr
    unfold runSections at h
    injection h with h9
    subst h9
    cases hc : st.current with
    | none =>
      simp only [hc] at hr
      exact hparts r hr
    | some c =>
      simp only [hc, runsOf_append] at hr
      rcases List.mem_append.mp hr with h2 | h2
      · exact hparts r h2
      · have h5 : r = c := by simpa [runsOf] using h2
        rw [h5]
        exact hcur c hc
  | cons sec rest ih =>
    intro st hss hparts hcur tc h r hr
    have hsec : dataPre "exitcode:" sec.Name = false := hss sec (List.mem_cons_self sec rest)
    have hrest : ∀ s2 ∈ rest, dataPre "exitcode:" s2.Name = false :=
      fun s2 hs2 => hss s2 (List.mem_cons_of_mem sec hs2)
    unfold runSections at h
    cases hps : processSection st sec with
    | error e =>
      rw [hps] at h
      cases h
    | ok st1 =>
      simp only [hps] at h
      obtain ⟨hp1, hc1⟩ := processSection_zero st sec st1 hsec hparts hcur hps
      exact ih st1 hrest hp1 hc1 tc h r hr

/-- C3 counterexample: the exit code is parsed from the text of the
exitcode header line, not from the section body.  For the transcript
consisting of an invocation, the line exitcode colon 3, and the body line 7,
the invocation's expected exit code is 3 — not 7 as the claim (parse the
section's body) would require, and not 0. -/
theorem C3_counterexample :
    ((SectionParser fqBoundary "$ c\nexitcode: 3\n7\n").map fun sec => sec.Value) =
      ["", "7\n"] ∧
    ((parseTestCases "$ c\nexitcode: 3\n7\n").toOption.map fun tc =>
      (runsOf tc.parts).map fun r => r.expectedExitCode) = some [3] ∧
    (3 : Int) ≠ 7 ∧ (3 : Int) ≠ 0 := by
  refine ⟨by decide, ?_, by decide, by decide⟩
  rfl

/-- C3 (amended): an exitcode section sets the current invocation's expected
exit code to the integer parsed (after whitespace trimming, zero on a parse
failure) from the header text following the exitcode prefix, ignoring the
section body; and an invocation in a transcript with no exitcode section has
expected exit code zero. -/
theorem C3_exitcode :
    (∀ (st : ParseState) (sec : Section) (c : testCaseRun),
      st.current = some c → dataPre "exitcode:" sec.Name = true →
      processSection st sec = .ok { st with current := some { c with
        expectedExitCode := atoi (trimSpaceStr (trimPrefixStr sec.Name "exitcode:")) } }) ∧
    (∀ (s : String) (tc : testCase), parseTestCases s = .ok tc →
      (∀ sec ∈ SectionParser fqBoundary s, dataPre "exitcode:" sec.Name = false) →
      ∀ r ∈ runsOf tc.parts, r.expectedExitCode = 0) := by
  constructor
  · intro st sec c hc hd
    obtain ⟨t, hn⟩ := dataPre_head "exitcode:" sec.Name 'e'
      ['x', 'i', 't', 'c', 'o', 'd', 'e', ':'] rfl hd
    have h1 : dataPre "#" sec.Name = false := by
      unfold dataPre
      rw [show ("#" : String).data = ['#'] from rfl, hn, isPrefixOf_single_cons]
      decide
    have h2 : dataPre "/" sec.Name = false := by
      unfold dataPre
      rw [show ("/" : String).data = ['/'] from rfl, hn, isPrefixOf_single_cons]
      decide
    have h3 : dataPre "$" sec.Name = false := by
      unfold dataPre
      rw [show ("$" : String).data = ['$'] from rfl, hn, isPrefixOf_single_cons]
      decide
    unfold processSection
    simp only [h1, h2, h3, hd, Bool.false_eq_true, if_false, if_true, hc]
  · intro s tc h hss
    exact runSections_zero (SectionParser fqBoundary s) ⟨[], none, 0⟩ hss
      (by intro r hr; simp [runsOf] at hr) (by intro c hc; cases hc) tc h

theorem C3_exitcode_witness :
    processSection ⟨[], some (runWith []), 0⟩ ⟨2, "exitcode: 3", "7\n"⟩ =
      .ok ⟨[], some { (runWith []) with expectedExitCode := 3 }, 0⟩ :=
  C3_exitcode.1 ⟨[], some (runWith []), 0⟩ ⟨2, "exitcode: 3", "7\n"⟩ (runWith []) rfl
    (by decide)

end Fqtest
